import Mathlib

deriving instance DecidableEq for Except

/-
Verification development for the image-updater service.

Shallow embedding of the update pipeline implemented in src/main.rs,
src/overrides.rs and src/config.rs:
  * the alphanumeric tag comparator (the alphanumeric-sort crate's
    `compare_path`, which on plain strings is `compare_str`),
  * a regex engine fragment modelling the regex crate's `Regex::new` /
    `Regex::is_match` (substring-search semantics, `^`/`$` anchors at the
    pattern ends, literals, escapes, `.`, `\d`, `*`, `+`, `?`),
  * tag resolution (`get_latest_tag_for_candidate`),
  * override patching (`update_tag_for_candidate` over src/overrides.rs's
    `Overrides` document),
  * candidate extraction from manifest documents (`get_candidates_from`),
  * the per-trigger update orchestration (`update`) and the webhook
    handler (`root`).
External I/O (git, registry HTTP, the file system, YAML text) is
represented by explicit inputs: the registry is an oracle from candidates
to tag listings, the working copy is a map from repo-relative paths to
parsed override-file states, and manifest documents are generic
string-keyed trees.
-/

namespace ImageUpdater

/-! ## The alphanumeric tag comparator

`alphanumeric_sort::compare_path` on tag strings (which contain no path
separator) compares the two strings character by character, except that a
position where both sides hold an ASCII digit consumes the whole digit run
on both sides and compares the runs numerically; equal runs (also runs of
different length, such as "1" versus "01") continue after the runs.

The crate accumulates a run into an IEEE-754 double (`da = da * 10.0 + d`);
this embedding accumulates into `Nat`.  While a run's value stays below
`2^53`, every intermediate result of that accumulation is an integer below
`2^53` (each partial value is at most the run's value), hence exactly
representable, and every multiply and add is exact: on such runs the
crate's float comparison IS the numeric comparison modelled here.  On runs
of roughly 16 digits or more the double rounds, and the crate can tie
DISTINCT runs (for example `10^17 + 1` and `10^17 + 2` round to the same
double) — an order this embedding does not reproduce.  `shortRuns` below
decides membership in the exact regime, and every theorem about the
numeric-run ordering carries it as a hypothesis, confining the statement
to inputs on which the embedding and the program provably agree. -/

/-- Rust's `char::is_ascii_digit`: the character is one of `'0'`..`'9'`. -/
def isAsciiDigit (c : Char) : Bool := 48 ≤ c.toNat && c.toNat ≤ 57

/-- Three-way comparison of naturals, as Rust's `Ord` on integers. -/
def cmpNat (a b : Nat) : Ordering :=
  if a < b then Ordering.lt else if b < a then Ordering.gt else Ordering.eq

/-- Three-way comparison of characters by code point, as Rust's `Ord` on `char`. -/
def cmpChar (a b : Char) : Ordering := cmpNat a.toNat b.toNat

/-- Consume the leading ASCII-digit run, accumulating its numeric value onto
`acc`; returns the value and the rest of the input.  The accumulation is
exact (`Nat`); it equals the crate's float accumulation exactly when the
run's value is below `2^53` — see the section comment and `shortRuns`. -/
def digitRun (acc : Nat) : List Char → Nat × List Char
  | [] => (acc, [])
  | c :: cs =>
    if isAsciiDigit c then digitRun (acc * 10 + (c.toNat - 48)) cs else (acc, c :: cs)

/-- The largest magnitude at which every natural number is exactly
representable in an IEEE-754 double. -/
def doubleExactBound : Nat := 2 ^ 53

/-- Worker for `shortRuns`: `acc` is the value of the digit run currently
being read. -/
def runsBelowAux (acc : Nat) : List Char → Bool
  | [] => decide (acc < doubleExactBound)
  | c :: cs =>
    if isAsciiDigit c then runsBelowAux (acc * 10 + (c.toNat - 48)) cs
    else decide (acc < doubleExactBound) && runsBelowAux 0 cs

/-- Every maximal ASCII-digit run of the string, read as a number, stays
below `2^53`.  On such strings the crate's float accumulation of digit runs
performs only exact operations, so its comparison coincides with the `Nat`
comparison modelled by `compare_path`; theorems about the numeric-run
ordering are stated under this hypothesis. -/
def shortRuns (l : List Char) : Bool := runsBelowAux 0 l

/-- Fuelled worker for the alphanumeric comparison.  The fuel only serves to
make the recursion structural (each step consumes at least one character of
the first argument, so fuel `a.length` is always enough; the fuel-exhausted
branch is unreachable from `compare_path`). -/
def anCompareFuel : Nat → List Char → List Char → Ordering
  | 0, a, b =>
    if a.isEmpty then (if b.isEmpty then Ordering.eq else Ordering.lt)
    else (if b.isEmpty then Ordering.gt else Ordering.eq)
  | fuel + 1, a, b =>
    match a, b with
    | [], [] => Ordering.eq
    | [], _ :: _ => Ordering.lt
    | _ :: _, [] => Ordering.gt
    | x :: xs, y :: ys =>
      if isAsciiDigit x && isAsciiDigit y then
        match cmpNat (digitRun 0 (x :: xs)).1 (digitRun 0 (y :: ys)).1 with
        | Ordering.eq => anCompareFuel fuel (digitRun 0 (x :: xs)).2 (digitRun 0 (y :: ys)).2
        | o => o
      else
        match cmpChar x y with
        | Ordering.eq => anCompareFuel fuel xs ys
        | o => o

/-- `alphanumeric_sort::compare_path` restricted to single-component paths,
i.e. `compare_str`, on the underlying character lists.  Digit runs are
compared by their exact `Nat` values; this coincides with the crate's float
comparison exactly on strings satisfying `shortRuns` (runs below `2^53`),
and the ordering theorems below are confined to that regime. -/
def compare_path (a b : String) : Ordering := anCompareFuel a.data.length a.data b.data

/-- The non-strict order induced by the comparator: `a` sorts no later than
`b`.  `Vec::sort_by(compare_path)` sorts ascending with respect to this
relation (stably). -/
def tagLe (a b : String) : Prop := compare_path a b ≠ Ordering.gt

instance : DecidableRel tagLe :=
  fun a b => inferInstanceAs (Decidable (compare_path a b ≠ Ordering.gt))

/-! ## A regex fragment

The regex crate's `Regex::is_match` reports whether the pattern matches
anywhere inside the haystack (a substring match, not a full-string match).
We embed the fragment of the pattern language this repository's
configuration uses: literal characters, escapes, `.` (any character except
a newline), `\d`, the postfix operators `*`, `+`, `?`, and the anchors `^`
(only at the very start of the pattern) and `$` (only at the very end).
`Regex.new` returns `none` for patterns outside the fragment, so every
theorem below hypothesising a successful parse speaks only about patterns
the model represents faithfully. -/

inductive RegexAst where
  | emptyset
  | epsilon
  | char (c : Char)
  | anyChar
  | digitCls
  | concat (a b : RegexAst)
  | alt (a b : RegexAst)
  | star (a : RegexAst)
  deriving DecidableEq

/-- Does the expression accept the empty word? -/
def nullable : RegexAst → Bool
  | RegexAst.emptyset => false
  | RegexAst.epsilon => true
  | RegexAst.char _ => false
  | RegexAst.anyChar => false
  | RegexAst.digitCls => false
  | RegexAst.concat a b => nullable a && nullable b
  | RegexAst.alt a b => nullable a || nullable b
  | RegexAst.star _ => true

/-- Brzozowski derivative of the expression by one character. -/
def regexDeriv : RegexAst → Char → RegexAst
  | RegexAst.emptyset, _ => RegexAst.emptyset
  | RegexAst.epsilon, _ => RegexAst.emptyset
  | RegexAst.char c, x => if x = c then RegexAst.epsilon else RegexAst.emptyset
  | RegexAst.anyChar, x => if x = '\n' then RegexAst.emptyset else RegexAst.epsilon
  | RegexAst.digitCls, x => if isAsciiDigit x then RegexAst.epsilon else RegexAst.emptyset
  | RegexAst.concat a b, x =>
    if nullable a then RegexAst.alt (RegexAst.concat (regexDeriv a x) b) (regexDeriv b x)
    else RegexAst.concat (regexDeriv a x) b
  | RegexAst.alt a b, x => RegexAst.alt (regexDeriv a x) (regexDeriv b x)
  | RegexAst.star a, x => RegexAst.concat (regexDeriv a x) (RegexAst.star a)

/-- The expression accepts exactly this word. -/
def accepts (r : RegexAst) : List Char → Bool
  | [] => nullable r
  | c :: cs => accepts (regexDeriv r c) cs

/-- A compiled pattern: the body expression plus whether the pattern was
anchored at its start (`^...`) and/or at its end (`...$`). -/
structure Regex where
  anchoredStart : Bool
  anchoredEnd : Bool
  core : RegexAst
  deriving DecidableEq

inductive RegexTok where
  | atom (r : RegexAst)
  | starTok
  | plusTok
  | optTok
  deriving DecidableEq

/-- Lex the anchor-stripped pattern body into atoms and postfix operators;
`none` on syntax outside the fragment. -/
def lexRegex : List Char → Option (List RegexTok)
  | [] => some []
  | '\\' :: c :: rest =>
    match
      (match c with
        | 'd' => some RegexAst.digitCls
        | '.' => some (RegexAst.char '.')
        | '\\' => some (RegexAst.char '\\')
        | '+' => some (RegexAst.char '+')
        | '*' => some (RegexAst.char '*')
        | '?' => some (RegexAst.char '?')
        | '^' => some (RegexAst.char '^')
        | '$' => some (RegexAst.char '$')
        | '(' => some (RegexAst.char '(')
        | ')' => some (RegexAst.char ')')
        | '[' => some (RegexAst.char '[')
        | ']' => some (RegexAst.char ']')
        | '\x7b' => some (RegexAst.char '\x7b')
        | '\x7d' => some (RegexAst.char '\x7d')
        | '|' => some (RegexAst.char '|')
        | '/' => some (RegexAst.char '/')
        | '-' => some (RegexAst.char '-')
        | _ => none) with
    | none => none
    | some a =>
      match lexRegex rest with
      | none => none
      | some ts => some (RegexTok.atom a :: ts)
  | '*' :: rest =>
    match lexRegex rest with
    | none => none
    | some ts => some (RegexTok.starTok :: ts)
  | '+' :: rest =>
    match lexRegex rest with
    | none => none
    | some ts => some (RegexTok.plusTok :: ts)
  | '?' :: rest =>
    match lexRegex rest with
    | none => none
    | some ts => some (RegexTok.optTok :: ts)
  | '.' :: rest =>
    match lexRegex rest with
    | none => none
    | some ts => some (RegexTok.atom RegexAst.anyChar :: ts)
  | c :: rest =>
    if c ∈ ['(', ')', '[', ']', '\x7b', '\x7d', '|', '^', '$', '\\'] then none
    else
      match lexRegex rest with
      | none => none
      | some ts => some (RegexTok.atom (RegexAst.char c) :: ts)

/-- Assemble the token stream into one expression (postfix operators bind to
the preceding atom); `none` if an operator has no preceding atom. -/
def parseRegexToks : List RegexTok → Option RegexAst
  | [] => some RegexAst.epsilon
  | RegexTok.atom r :: RegexTok.starTok :: rest =>
    match parseRegexToks rest with
    | none => none
    | some k => some (RegexAst.concat (RegexAst.star r) k)
  | RegexTok.atom r :: RegexTok.plusTok :: rest =>
    match parseRegexToks rest with
    | none => none
    | some k => some (RegexAst.concat (RegexAst.concat r (RegexAst.star r)) k)
  | RegexTok.atom r :: RegexTok.optTok :: rest =>
    match parseRegexToks rest with
    | none => none
    | some k => some (RegexAst.concat (RegexAst.alt r RegexAst.epsilon) k)
  | RegexTok.atom r :: rest =>
    match parseRegexToks rest with
    | none => none
    | some k => some (RegexAst.concat r k)
  | _ => none

/-- Strip a final unescaped `$` anchor, reporting whether one was present. -/
def stripEndDollar (cs : List Char) : Bool × List Char :=
  match cs.reverse with
  | '$' :: rest =>
    match rest with
    | '\\' :: _ => (false, cs)
    | _ => (true, rest.reverse)
  | _ => (false, cs)

/-- `Regex::new` on the modelled fragment: strip a leading `^` and a trailing
unescaped `$`, then lex and assemble the body. -/
def Regex.new (pat : String) : Option Regex :=
  let cs := pat.data
  let startStripped : Bool × List Char :=
    match cs with
    | '^' :: r => (true, r)
    | _ => (false, cs)
  let endStripped := stripEndDollar startStripped.2
  match lexRegex endStripped.2 with
  | none => none
  | some toks =>
    match parseRegexToks toks with
    | none => none
    | some core => some ⟨startStripped.1, endStripped.1, core⟩

/-- All suffixes of a character list (longest first, ending with `[]`). -/
def listTails : List Char → List (List Char)
  | [] => [[]]
  | c :: cs => (c :: cs) :: listTails cs

/-- All contiguous initial segments of a character list. -/
def listInits : List Char → List (List Char)
  | [] => [[]]
  | c :: cs => [] :: (listInits cs).map (fun l => c :: l)

/-- `Regex::is_match`: the pattern matches SOMEWHERE inside the haystack.
An unanchored pattern may match any contiguous substring; a `^` anchor
restricts the match to start at the beginning, a `$` anchor to end at the
end. -/
def Regex.is_match (re : Regex) (s : String) : Bool :=
  match re.anchoredStart, re.anchoredEnd with
  | true, true => accepts re.core s.data
  | true, false => (listInits s.data).any (accepts re.core)
  | false, true => (listTails s.data).any (accepts re.core)
  | false, false => (listTails s.data).any (fun t => (listInits t).any (accepts re.core))

/-- Modelled from the spec: "retains only tags whose entire string matches".
The spec's notion of retaining a tag — the compiled pattern must match the
tag in its entirety — stated for comparison against the code's
`Regex.is_match`. -/
def specFullMatch (re : Regex) (s : String) : Bool := accepts re.core s.data

/-! ## Candidates and tag resolution -/

/-- `Candidate` from src/main.rs: one declared image-update target. -/
structure Candidate where
  app_name : String
  url : String
  allow_tags : String
  helm_image_tag : String
  path : String
  deriving DecidableEq

/-- Rust's `str::trim_start_matches("regexp:")`: remove every leading
occurrence of the literal `regexp:`. -/
def trimStartMatchesRegexp : List Char → List Char
  | 'r' :: 'e' :: 'g' :: 'e' :: 'x' :: 'p' :: ':' :: rest => trimStartMatchesRegexp rest
  | s => s

/-- `get_latest_tag_for_candidate` from src/main.rs, with the registry
transport abstracted away: `registryTags` is the tag listing the registry
returned for `candidate.url`.  Compiles `allow_tags` (after stripping the
`regexp:` occurrences), keeps the tags `is_match` accepts, sorts them with
the alphanumeric comparator (`sort_by` is a stable sort; `insertionSort`
with `tagLe` is the stable sort of the same total preorder) and takes the
last, failing when nothing was retained. -/
def get_latest_tag_for_candidate (candidate : Candidate) (registryTags : List String) :
    Except String String :=
  match Regex.new (String.mk (trimStartMatchesRegexp candidate.allow_tags.data)) with
  | none => Except.error "invalid regex"
  | some tags_re =>
    let tags := registryTags.filter (fun name => tags_re.is_match name)
    let sorted := List.insertionSort tagLe tags
    match sorted.getLast? with
    | none => Except.error ("No tags matched the regex for " ++ candidate.app_name)
    | some t => Except.ok t

/-! ## Override documents and the patcher (src/overrides.rs) -/

/-- `Parameter` from src/overrides.rs. -/
structure Parameter where
  name : String
  value : String
  forcestring : Bool
  deriving DecidableEq

/-- `ParametersOverride` from src/overrides.rs (a newtype over the vector). -/
structure ParametersOverride where
  params : List Parameter
  deriving DecidableEq

/-- `HelmOverride` from src/overrides.rs. -/
structure HelmOverride where
  parameters : ParametersOverride
  deriving DecidableEq

/-- `Overrides` from src/overrides.rs. -/
structure Overrides where
  helm : HelmOverride
  deriving DecidableEq

/-- `Overrides::default()`: an empty parameter sequence. -/
def Overrides.default : Overrides := ⟨⟨⟨[]⟩⟩⟩

/-- The for-loop of `update_tag_for_candidate`: set `value := tag` on every
parameter whose `name` equals `helm_image_tag` and whose `value` differs;
report whether anything was modified. -/
def patchParameters (helm_image_tag tag : String) : List Parameter → List Parameter × Bool
  | [] => ([], false)
  | p :: ps =>
    let rest := patchParameters helm_image_tag tag ps
    if p.name = helm_image_tag ∧ p.value ≠ tag then (⟨p.name, tag, p.forcestring⟩ :: rest.1, true)
    else (p :: rest.1, rest.2)

/-- The document-level patch applied by `update_tag_for_candidate`. -/
def patchOverrides (doc : Overrides) (candidate : Candidate) (tag : String) : Overrides × Bool :=
  let res := patchParameters candidate.helm_image_tag tag doc.helm.parameters.params
  (⟨⟨⟨res.1⟩⟩⟩, res.2)

/-- The parsed state of one path in the working copy: no file, a file that
fails to parse as an `Overrides` document, or a parsed document.  (YAML
(de)serialisation itself is an external capability; the working copy holds
parsed documents.) -/
inductive FileState where
  | absent
  | invalid
  | valid (doc : Overrides)
  deriving DecidableEq

/-- The manifest working copy, keyed by repo-relative path. -/
def FS : Type := String → FileState

/-- The override-file path `update_tag_for_candidate` computes (relative to
the repository root, which is fixed for a run). -/
def overridesPath (candidate : Candidate) : String :=
  candidate.path ++ "/.argocd-source-" ++ candidate.app_name ++ ".yaml"

/-- Write one path of the working copy. -/
def fsWrite (fs : FS) (path : String) (doc : Overrides) : FS :=
  fun p => if p = path then FileState.valid doc else fs p

/-- `update_tag_for_candidate` from src/main.rs: load the override file if
present (a parse failure is an error), else start from the default document;
patch it; write it back only when something changed; return whether anything
changed. -/
def update_tag_for_candidate (fs : FS) (candidate : Candidate) (tag : String) :
    Except String (FS × Bool) :=
  let overrides_path := overridesPath candidate
  match fs overrides_path with
  | FileState.invalid => Except.error "failed to parse overrides file"
  | FileState.absent =>
    let res := patchOverrides Overrides.default candidate tag
    if res.2 then Except.ok (fsWrite fs overrides_path res.1, true) else Except.ok (fs, false)
  | FileState.valid current =>
    let res := patchOverrides current candidate tag
    if res.2 then Except.ok (fsWrite fs overrides_path res.1, true) else Except.ok (fs, false)

/-! ## The update orchestration (the `update` function of src/main.rs)

The registry transport (`Reference::from_str` plus `Client::list_tags`) is
an oracle from candidates to either an error or a tag listing. -/

/-- Tag resolution for one candidate: query the registry, then select the
latest matching tag. -/
def resolve_tag (registry : Candidate → Except String (List String)) (c : Candidate) :
    Except String String :=
  match registry c with
  | Except.error e => Except.error e
  | Except.ok tags => get_latest_tag_for_candidate c tags

/-- The per-candidate loop of `update`.  Both fallible calls are chained
with `?`, so the first failure ends the loop.  Returns the working copy,
the list of per-candidate patch reports produced so far (`has_changed` in
the source is their disjunction), and the error that stopped the loop, if
any. -/
def updateLoop (registry : Candidate → Except String (List String)) :
    List Candidate → FS → FS × List Bool × Option String
  | [], fs => (fs, [], none)
  | c :: cs, fs =>
    match resolve_tag registry c with
    | Except.error e => (fs, [], some e)
    | Except.ok tag =>
      match update_tag_for_candidate fs c tag with
      | Except.error e => (fs, [], some e)
      | Except.ok (fs', ch) =>
        let rest := updateLoop registry cs fs'
        (rest.1, ch :: rest.2.1, rest.2.2)

/-- The outcome of one run of `update`: the final working copy, whether the
commit-and-push step was entered, and the error that aborted the run, if
any. -/
structure RunResult where
  fs : FS
  committed : Bool
  err : Option String

/-- `update` from src/main.rs, after sync and candidate extraction: run the
per-candidate loop; on error the run aborts (the error is surfaced and no
commit happens); otherwise commit-and-push is entered exactly when
`has_changed` — the disjunction of the patch reports — is set. -/
def update (registry : Candidate → Except String (List String)) (candidates : List Candidate)
    (fs0 : FS) : RunResult :=
  let r := updateLoop registry candidates fs0
  match r.2.2 with
  | some e => ⟨r.1, false, some e⟩
  | none => ⟨r.1, r.2.1.any id, none⟩

/-- Projection used to observe a patch call's report without comparing
working copies. -/
def patchOutcome : Except String (FS × Bool) → Option Bool
  | Except.ok r => some r.2
  | Except.error _ => none

/-! ## The webhook handler (`root` and `SecretGuard` of src/main.rs) -/

/-- The status the caller of the trigger endpoint observes. -/
inductive TriggerStatus where
  | success
  | unauthorized
  deriving DecidableEq

/-- The `root` handler guarded by `SecretGuard`: the guard compares the
`X-Secret` header against the configured secret for exact equality (a
missing header never equals the secret); an authorized request runs the
pipeline, LOGS a pipeline error and returns unit — rocket turns the unit
body into a plain success status whatever `updateResult` was. -/
def root (configSecret : String) (header : Option String)
    (updateResult : Except String Unit) : TriggerStatus :=
  if header = some configSecret then TriggerStatus.success else TriggerStatus.unauthorized

/-! ## Candidate extraction (src/main.rs `get_candidates_from`)

A generic YAML value is a string, a mapping or something else; mappings are
association lists (serde_yaml mappings have unique keys after parsing, and
lookups take the first hit). -/

inductive YVal where
  | str (s : String)
  | map (entries : List (String × YVal))
  | other

/-- A generic mapping. -/
def YMap : Type := List (String × YVal)

/-- Mapping lookup. -/
def yGet (m : YMap) (k : String) : Option YVal :=
  match List.find? (fun kv => kv.1 == k) m with
  | some kv => some kv.2
  | none => none

/-- Lookup followed by `Value::as_str`. -/
def yGetStr (m : YMap) (k : String) : Option String :=
  match yGet m k with
  | some (YVal.str s) => some s
  | _ => none

/-- Lookup followed by `Value::as_mapping`. -/
def yGetMap (m : YMap) (k : String) : Option YMap :=
  match yGet m k with
  | some (YVal.map entries) => some entries
  | _ => none

/-- `is_argo_app` from src/main.rs. -/
def is_argo_app (doc : YMap) : Bool :=
  yGetStr doc "kind" == some "Application" &&
    yGetStr doc "apiVersion" == some "argoproj.io/v1alpha1"

/-- Rust's `str::split(',')` on the underlying characters. -/
def splitComma : List Char → List (List Char)
  | [] => [[]]
  | c :: cs =>
    if c = ',' then [] :: splitComma cs
    else
      match splitComma cs with
      | [] => [[c]]
      | piece :: rest => (c :: piece) :: rest

/-- The whitespace Rust's `str::trim` removes, restricted to the ASCII
whitespace characters (the full Unicode set also contains code points that
never occur in the manifests modelled here). -/
def isRustWhitespace (c : Char) : Bool := c = ' ' || c = '\t' || c = '\n' || c = '\r'

/-- Rust's `str::trim` on the underlying characters. -/
def trimChars (l : List Char) : List Char :=
  ((l.dropWhile isRustWhitespace).reverse.dropWhile isRustWhitespace).reverse

/-- Rust's `str::split_once('=')`: split at the FIRST `=`, or `none` when
there is none. -/
def split_once_eq : List Char → Option (List Char × List Char)
  | [] => none
  | c :: cs =>
    if c = '=' then some ([], cs)
    else
      match split_once_eq cs with
      | some lr => some (c :: lr.1, lr.2)
      | none => none

/-- The body of the per-image loop in `get_candidates_from`: trim the
comma-separated entry, split it at its first `=`, then require BOTH
per-image annotations to be present strings; `none` (the loop's `continue`)
otherwise. -/
def process_image (annotations : YMap) (app_name path : String) (image : List Char) :
    Option Candidate :=
  match split_once_eq (trimChars image) with
  | none => none
  | some nameUrl =>
    let name := String.mk nameUrl.1
    match yGetStr annotations ("argocd-image-updater.argoproj.io/" ++ name ++ ".allow-tags") with
    | none => none
    | some allow_tags =>
      match
        yGetStr annotations ("argocd-image-updater.argoproj.io/" ++ name ++ ".helm.image-tag")
      with
      | none => none
      | some helm_image_tag =>
        some ⟨app_name, String.mk nameUrl.2, allow_tags, helm_image_tag, path⟩

/-- The image-list loop of `get_candidates_from`: split the annotation value
on commas and process the entries in order, skipping the ones `continue`
drops. -/
def candidates_from_image_list (annotations : YMap) (app_name path image_list : String) :
    List Candidate :=
  (splitComma image_list.data).filterMap (process_image annotations app_name path)

/-- `get_candidates_from` for a single parsed document (the function itself
folds this over every document of the file): check eligibility, require the
metadata, annotations, image-list, spec.source.path and metadata.name
fields, then run the image-list loop. -/
def get_candidates_from_doc (doc : YMap) : List Candidate :=
  if is_argo_app doc then
    match yGetMap doc "metadata" with
    | none => []
    | some metadata =>
      match yGetMap metadata "annotations" with
      | none => []
      | some annotations =>
        match yGetStr annotations "argocd-image-updater.argoproj.io/image-list" with
        | none => []
        | some image_list =>
          match yGetMap doc "spec" with
          | none => []
          | some spec =>
            match yGetMap spec "source" with
            | none => []
            | some source =>
              match yGetStr source "path" with
              | none => []
              | some path =>
                match yGetStr metadata "name" with
                | none => []
                | some app_name =>
                  candidates_from_image_list annotations app_name path image_list
  else []

/-! ## Order-theoretic facts about the comparator -/

theorem cmpNat_self (a : Nat) : cmpNat a a = Ordering.eq := by
  simp [cmpNat]

theorem cmpNat_swap (a b : Nat) : cmpNat b a = (cmpNat a b).swap := by
  unfold cmpNat
  by_cases h1 : a < b <;> by_cases h2 : b < a <;> simp [h1, h2, Ordering.swap] <;> omega

theorem cmpNat_ne_gt {a b : Nat} : cmpNat a b ≠ Ordering.gt ↔ a ≤ b := by
  unfold cmpNat
  by_cases h1 : a < b <;> by_cases h2 : b < a <;> simp [h1, h2] <;> omega

theorem cmpNat_eq_eq {a b : Nat} : cmpNat a b = Ordering.eq ↔ a = b := by
  unfold cmpNat
  by_cases h1 : a < b <;> by_cases h2 : b < a <;> simp [h1, h2] <;> omega

theorem cmpNat_eq_lt {a b : Nat} : cmpNat a b = Ordering.lt ↔ a < b := by
  unfold cmpNat
  by_cases h1 : a < b <;> by_cases h2 : b < a <;> simp [h1, h2] <;> omega

theorem cmpChar_swap (a b : Char) : cmpChar b a = (cmpChar a b).swap := cmpNat_swap _ _

theorem toNat_of_isAsciiDigit {c : Char} (h : isAsciiDigit c = true) :
    48 ≤ c.toNat ∧ c.toNat ≤ 57 := by
  simpa [isAsciiDigit] using h

theorem toNat_of_not_isAsciiDigit {c : Char} (h : isAsciiDigit c = false) :
    c.toNat < 48 ∨ 57 < c.toNat := by
  simp [isAsciiDigit] at h
  omega

theorem digitRun_length_le (acc : Nat) (l : List Char) :
    ((digitRun acc l).2).length ≤ l.length := by
  induction l generalizing acc with
  | nil => simp [digitRun]
  | cons c cs ih =>
    by_cases h : isAsciiDigit c = true
    · simp only [digitRun, h, if_true]
      exact Nat.le_succ_of_le (ih _)
    · simp [digitRun, h]

theorem digitRun_tail_length {x : Char} (hx : isAsciiDigit x = true) (acc : Nat)
    (xs : List Char) : ((digitRun acc (x :: xs)).2).length ≤ xs.length := by
  simp only [digitRun, hx, if_true]
  exact digitRun_length_le _ _

/-- Unfold one digit-digit step of the comparator. -/
theorem anCompareFuel_cons_digit {x y : Char} (hx : isAsciiDigit x = true)
    (hy : isAsciiDigit y = true) (fuel : Nat) (xs ys : List Char) :
    anCompareFuel (fuel + 1) (x :: xs) (y :: ys) =
      match cmpNat (digitRun 0 (x :: xs)).1 (digitRun 0 (y :: ys)).1 with
      | Ordering.eq => anCompareFuel fuel (digitRun 0 (x :: xs)).2 (digitRun 0 (y :: ys)).2
      | o => o := by
  simp [anCompareFuel, hx, hy]

/-- Unfold one character step of the comparator (at least one side is not a
digit). -/
theorem anCompareFuel_cons_char {x y : Char} (h : (isAsciiDigit x && isAsciiDigit y) = false)
    (fuel : Nat) (xs ys : List Char) :
    anCompareFuel (fuel + 1) (x :: xs) (y :: ys) =
      match cmpChar x y with
      | Ordering.eq => anCompareFuel fuel xs ys
      | o => o := by
  simp [anCompareFuel, h]

/-- A step outcome that is not `gt` has a head comparison that is not `gt`. -/
theorem step_ne_gt {o rec : Ordering}
    (h : (match o with | Ordering.eq => rec | o' => o') ≠ Ordering.gt) :
    o ≠ Ordering.gt := by
  intro ho
  rw [ho] at h
  exact h rfl

/-- The comparator's value does not depend on the fuel, as long as the fuel
covers the first argument. -/
theorem anCompareFuel_congr : ∀ (f g : Nat) (a b : List Char), a.length ≤ f → a.length ≤ g →
    anCompareFuel f a b = anCompareFuel g a b := by
  intro f
  induction f with
  | zero =>
    intro g a b ha _
    have ha' : a = [] := List.eq_nil_of_length_eq_zero (Nat.le_zero.mp ha)
    subst ha'
    cases g with
    | zero => rfl
    | succ g => cases b <;> simp [anCompareFuel]
  | succ f ih =>
    intro g a b ha hg
    cases a with
    | nil =>
      cases g with
      | zero => cases b <;> simp [anCompareFuel]
      | succ g => cases b <;> simp [anCompareFuel]
    | cons x xs =>
      cases g with
      | zero => simp at hg
      | succ g =>
        cases b with
        | nil => simp [anCompareFuel]
        | cons y ys =>
          have hxs : xs.length ≤ f := by simpa using ha
          have hxs' : xs.length ≤ g := by simpa using hg
          by_cases hd : (isAsciiDigit x && isAsciiDigit y) = true
          · obtain ⟨hx, hy⟩ := Bool.and_eq_true_iff.mp hd
            rw [anCompareFuel_cons_digit hx hy, anCompareFuel_cons_digit hx hy]
            cases hcmp : cmpNat (digitRun 0 (x :: xs)).1 (digitRun 0 (y :: ys)).1 <;> simp
            exact ih g _ _ (le_trans (digitRun_tail_length hx 0 xs) hxs)
              (le_trans (digitRun_tail_length hx 0 xs) hxs')
          · have hd' := Bool.eq_false_iff.mpr hd
            rw [anCompareFuel_cons_char hd', anCompareFuel_cons_char hd']
            cases hcmp : cmpChar x y <;> simp
            exact ih g _ _ hxs hxs'

theorem anCompareFuel_swap : ∀ (f : Nat) (a b : List Char), a.length ≤ f → b.length ≤ f →
    anCompareFuel f b a = (anCompareFuel f a b).swap := by
  intro f
  induction f with
  | zero =>
    intro a b ha hb
    have ha' : a = [] := List.eq_nil_of_length_eq_zero (Nat.le_zero.mp ha)
    have hb' : b = [] := List.eq_nil_of_length_eq_zero (Nat.le_zero.mp hb)
    subst ha'; subst hb'
    rfl
  | succ f ih =>
    intro a b ha hb
    cases a with
    | nil => cases b <;> simp [anCompareFuel, Ordering.swap]
    | cons x xs =>
      cases b with
      | nil => simp [anCompareFuel, Ordering.swap]
      | cons y ys =>
        have hxs : xs.length ≤ f := by simpa using ha
        have hys : ys.length ≤ f := by simpa using hb
        by_cases hd : (isAsciiDigit x && isAsciiDigit y) = true
        · obtain ⟨hx, hy⟩ := Bool.and_eq_true_iff.mp hd
          rw [anCompareFuel_cons_digit hy hx, anCompareFuel_cons_digit hx hy, cmpNat_swap]
          cases hcmp : cmpNat (digitRun 0 (x :: xs)).1 (digitRun 0 (y :: ys)).1 <;>
            simp [Ordering.swap]
          exact ih _ _ (le_trans (digitRun_tail_length hx 0 xs) hxs)
            (le_trans (digitRun_tail_length hy 0 ys) hys)
        · have hd' := Bool.eq_false_iff.mpr hd
          have hd'' : (isAsciiDigit y && isAsciiDigit x) = false := by
            rw [Bool.and_comm]; exact hd'
          rw [anCompareFuel_cons_char hd'', anCompareFuel_cons_char hd', cmpChar_swap]
          cases hcmp : cmpChar x y <;> simp [Ordering.swap]
          exact ih _ _ hxs hys

theorem anCompareFuel_refl : ∀ (f : Nat) (a : List Char), a.length ≤ f →
    anCompareFuel f a a = Ordering.eq := by
  intro f
  induction f with
  | zero =>
    intro a ha
    have ha' : a = [] := List.eq_nil_of_length_eq_zero (Nat.le_zero.mp ha)
    subst ha'
    rfl
  | succ f ih =>
    intro a ha
    cases a with
    | nil => simp [anCompareFuel]
    | cons x xs =>
      have hxs : xs.length ≤ f := by simpa using ha
      by_cases hd : (isAsciiDigit x && isAsciiDigit x) = true
      · obtain ⟨hx, _⟩ := Bool.and_eq_true_iff.mp hd
        rw [anCompareFuel_cons_digit hx hx, cmpNat_self]
        exact ih _ (le_trans (digitRun_tail_length hx 0 xs) hxs)
      · have hd' := Bool.eq_false_iff.mpr hd
        rw [anCompareFuel_cons_char hd']
        rw [show cmpChar x x = Ordering.eq from cmpNat_self _]
        exact ih _ hxs

/-- Characters compare strictly below any character with a larger code
point. -/
theorem cmpChar_eq_lt {a b : Char} (h : a.toNat < b.toNat) : cmpChar a b = Ordering.lt :=
  cmpNat_eq_lt.mpr h

/-- Transitivity of "not greater" for the fuelled comparator. -/
theorem anCompareFuel_trans : ∀ (f : Nat) (a b c : List Char),
    a.length ≤ f → b.length ≤ f → c.length ≤ f →
    anCompareFuel f a b ≠ Ordering.gt → anCompareFuel f b c ≠ Ordering.gt →
    anCompareFuel f a c ≠ Ordering.gt := by
  intro f
  induction f with
  | zero =>
    intro a b c ha _ hc _ _
    have ha' : a = [] := List.eq_nil_of_length_eq_zero (Nat.le_zero.mp ha)
    have hc' : c = [] := List.eq_nil_of_length_eq_zero (Nat.le_zero.mp hc)
    subst ha'; subst hc'
    simp [anCompareFuel]
  | succ f ih =>
    intro a b c ha hb hc h1 h2
    cases a with
    | nil => cases c <;> simp [anCompareFuel]
    | cons x xs =>
      cases b with
      | nil => simp [anCompareFuel] at h1
      | cons y ys =>
        cases c with
        | nil => simp [anCompareFuel] at h2
        | cons z zs =>
          have hxs : xs.length ≤ f := by simpa using ha
          have hys : ys.length ≤ f := by simpa using hb
          have hzs : zs.length ≤ f := by simpa using hc
          by_cases hx : isAsciiDigit x = true <;> by_cases hy : isAsciiDigit y = true <;>
            by_cases hz : isAsciiDigit z = true
          · -- all three digits: compare the runs numerically
            rw [anCompareFuel_cons_digit hx hy] at h1
            rw [anCompareFuel_cons_digit hy hz] at h2
            rw [anCompareFuel_cons_digit hx hz]
            have h12 : (digitRun 0 (x :: xs)).1 ≤ (digitRun 0 (y :: ys)).1 :=
              cmpNat_ne_gt.mp (step_ne_gt h1)
            have h23 : (digitRun 0 (y :: ys)).1 ≤ (digitRun 0 (z :: zs)).1 :=
              cmpNat_ne_gt.mp (step_ne_gt h2)
            cases hac : cmpNat (digitRun 0 (x :: xs)).1 (digitRun 0 (z :: zs)).1 with
            | lt => simp
            | gt =>
              have := cmpNat_ne_gt.mpr (le_trans h12 h23)
              exact absurd hac this
            | eq =>
              have hxz := cmpNat_eq_eq.mp hac
              have h12' : cmpNat (digitRun 0 (x :: xs)).1 (digitRun 0 (y :: ys)).1 =
                  Ordering.eq := cmpNat_eq_eq.mpr (by omega)
              have h23' : cmpNat (digitRun 0 (y :: ys)).1 (digitRun 0 (z :: zs)).1 =
                  Ordering.eq := cmpNat_eq_eq.mpr (by omega)
              rw [h12'] at h1
              rw [h23'] at h2
              simp only []
              exact ih _ _ _ (le_trans (digitRun_tail_length hx 0 xs) hxs)
                (le_trans (digitRun_tail_length hy 0 ys) hys)
                (le_trans (digitRun_tail_length hz 0 zs) hzs) h1 h2
          · -- x, y digits, z not: z is above every digit
            rw [anCompareFuel_cons_char (by simp [hy, hz]) ] at h2
            rw [anCompareFuel_cons_char (by simp [hx, hz])]
            have hyz : y.toNat ≤ z.toNat := cmpNat_ne_gt.mp (step_ne_gt h2)
            have hy' := toNat_of_isAsciiDigit hy
            have hx' := toNat_of_isAsciiDigit hx
            have hz' := toNat_of_not_isAsciiDigit (Bool.eq_false_iff.mpr hz)
            rw [cmpChar_eq_lt (by omega)]
            simp
          · -- x digit, y not, z digit: impossible (y sits above 57, z below)
            rw [anCompareFuel_cons_char (by simp [hx, hy])] at h1
            rw [anCompareFuel_cons_char (by simp [hy, hz])] at h2
            have hxy : x.toNat ≤ y.toNat := cmpNat_ne_gt.mp (step_ne_gt h1)
            have hyz : y.toNat ≤ z.toNat := cmpNat_ne_gt.mp (step_ne_gt h2)
            have hx' := toNat_of_isAsciiDigit hx
            have hz' := toNat_of_isAsciiDigit hz
            have hy' := toNat_of_not_isAsciiDigit (Bool.eq_false_iff.mpr hy)
            omega
          · -- x digit, y and z not: x ≤ y forces y above 57, and y ≤ z
            rw [anCompareFuel_cons_char (by simp [hx, hy])] at h1
            rw [anCompareFuel_cons_char (by simp [hy, hz])] at h2
            rw [anCompareFuel_cons_char (by simp [hx, hz])]
            have hxy : x.toNat ≤ y.toNat := cmpNat_ne_gt.mp (step_ne_gt h1)
            have hyz : y.toNat ≤ z.toNat := cmpNat_ne_gt.mp (step_ne_gt h2)
            have hx' := toNat_of_isAsciiDigit hx
            have hy' := toNat_of_not_isAsciiDigit (Bool.eq_false_iff.mpr hy)
            rw [cmpChar_eq_lt (by omega)]
            simp
          · -- x not a digit, y and z digits: x sits below 48
            rw [anCompareFuel_cons_char (by simp [hx, hy])] at h1
            rw [anCompareFuel_cons_char (by simp [hx, hz])]
            have hxy : x.toNat ≤ y.toNat := cmpNat_ne_gt.mp (step_ne_gt h1)
            have hy' := toNat_of_isAsciiDigit hy
            have hz' := toNat_of_isAsciiDigit hz
            have hx' := toNat_of_not_isAsciiDigit (Bool.eq_false_iff.mpr hx)
            rw [cmpChar_eq_lt (by omega)]
            simp
          · -- x not a digit, y digit, z not: x < 48 ≤ y ≤ z
            rw [anCompareFuel_cons_char (by simp [hx, hy])] at h1
            rw [anCompareFuel_cons_char (by simp [hy, hz])] at h2
            rw [anCompareFuel_cons_char (by simp [hx, hz])]
            have hxy : x.toNat ≤ y.toNat := cmpNat_ne_gt.mp (step_ne_gt h1)
            have hyz : y.toNat ≤ z.toNat := cmpNat_ne_gt.mp (step_ne_gt h2)
            have hy' := toNat_of_isAsciiDigit hy
            have hx' := toNat_of_not_isAsciiDigit (Bool.eq_false_iff.mpr hx)
            rw [cmpChar_eq_lt (by omega)]
            simp
          · -- x, y not digits, z digit: y ≤ z forces y below 48, and x ≤ y
            rw [anCompareFuel_cons_char (by simp [hx, hy])] at h1
            rw [anCompareFuel_cons_char (by simp [hy, hz])] at h2
            rw [anCompareFuel_cons_char (by simp [hx, hz])]
            have hxy : x.toNat ≤ y.toNat := cmpNat_ne_gt.mp (step_ne_gt h1)
            have hyz : y.toNat ≤ z.toNat := cmpNat_ne_gt.mp (step_ne_gt h2)
            have hy' := toNat_of_not_isAsciiDigit (Bool.eq_false_iff.mpr hy)
            have hz' := toNat_of_isAsciiDigit hz
            rw [cmpChar_eq_lt (by omega)]
            simp
          · -- no digits at all: plain lexicographic step
            rw [anCompareFuel_cons_char (by simp [hx, hy])] at h1
            rw [anCompareFuel_cons_char (by simp [hy, hz])] at h2
            rw [anCompareFuel_cons_char (by simp [hx, hz])]
            have hxy : x.toNat ≤ y.toNat := cmpNat_ne_gt.mp (step_ne_gt h1)
            have hyz : y.toNat ≤ z.toNat := cmpNat_ne_gt.mp (step_ne_gt h2)
            cases hac : cmpChar x z with
            | lt => simp
            | gt =>
              have hnle : ¬ x.toNat ≤ z.toNat := fun hle => absurd hac (cmpNat_ne_gt.mpr hle)
              omega
            | eq =>
              have hxz : x.toNat = z.toNat := cmpNat_eq_eq.mp hac
              have h12' : cmpChar x y = Ordering.eq := cmpNat_eq_eq.mpr (by omega)
              have h23' : cmpChar y z = Ordering.eq := cmpNat_eq_eq.mpr (by omega)
              rw [h12'] at h1
              rw [h23'] at h2
              simp only []
              exact ih _ _ _ hxs hys hzs h1 h2

theorem compare_path_swap (a b : String) : compare_path b a = (compare_path a b).swap := by
  unfold compare_path
  rw [anCompareFuel_congr b.data.length (max a.data.length b.data.length) b.data a.data le_rfl
      (le_max_right _ _),
    anCompareFuel_swap (max a.data.length b.data.length) a.data b.data (le_max_left _ _)
      (le_max_right _ _),
    anCompareFuel_congr (max a.data.length b.data.length) a.data.length a.data b.data
      (le_max_left _ _) le_rfl]

theorem compare_path_refl (a : String) : compare_path a a = Ordering.eq :=
  anCompareFuel_refl _ _ le_rfl

theorem tagLe_refl (a : String) : tagLe a a := by
  unfold tagLe
  rw [compare_path_refl]
  simp

theorem tagLe_total (a b : String) : tagLe a b ∨ tagLe b a := by
  by_cases h : tagLe a b
  · exact Or.inl h
  · right
    unfold tagLe at h ⊢
    have hg : compare_path a b = Ordering.gt := by
      by_contra hc
      exact h hc
    rw [compare_path_swap, hg]
    simp [Ordering.swap]

theorem tagLe_trans {a b c : String} (h1 : tagLe a b) (h2 : tagLe b c) : tagLe a c := by
  unfold tagLe compare_path at h1 h2 ⊢
  have La : a.data.length ≤ a.data.length + b.data.length + c.data.length := by omega
  have Lb : b.data.length ≤ a.data.length + b.data.length + c.data.length := by omega
  have Lc : c.data.length ≤ a.data.length + b.data.length + c.data.length := by omega
  rw [anCompareFuel_congr a.data.length _ a.data b.data le_rfl La] at h1
  rw [anCompareFuel_congr b.data.length _ b.data c.data le_rfl Lb] at h2
  rw [anCompareFuel_congr a.data.length _ a.data c.data le_rfl La]
  exact anCompareFuel_trans _ _ _ _ La Lb Lc h1 h2

instance : IsTotal String tagLe := ⟨tagLe_total⟩

instance : IsTrans String tagLe := ⟨fun _ _ _ => tagLe_trans⟩

/-- Mutually "not greater" strings compare equal (the comparator is a total
preorder, not antisymmetric: distinct strings such as "1" and "01" compare
equal). -/
theorem compare_path_eq_of_le_le {a b : String} (h1 : tagLe a b) (h2 : tagLe b a) :
    compare_path a b = Ordering.eq := by
  unfold tagLe at h1 h2
  rw [compare_path_swap] at h2
  cases h : compare_path a b with
  | eq => rfl
  | gt => exact absurd h h1
  | lt =>
    rw [h] at h2
    exact absurd rfl h2

/-- In a sorted list the last element is above every member. -/
theorem sorted_getLast?_max : ∀ {l : List String}, List.Sorted tagLe l → ∀ {t : String},
    l.getLast? = some t → ∀ u ∈ l, tagLe u t := by
  intro l
  induction l with
  | nil =>
    intro _ t ht
    simp at ht
  | cons x xs ih =>
    intro hs t ht u hu
    cases xs with
    | nil =>
      simp only [List.getLast?_singleton, Option.some.injEq] at ht
      simp only [List.mem_singleton] at hu
      subst ht
      subst hu
      exact tagLe_refl _
    | cons y ys =>
      rw [List.getLast?_cons_cons] at ht
      rcases List.mem_cons.mp hu with rfl | hu'
      · exact List.rel_of_sorted_cons hs t (List.mem_of_getLast?_eq_some ht)
      · exact ih hs.of_cons ht u hu'

/-! ## Characterisation of tag resolution -/

/-- After a successful pattern compilation the resolver is: keep the tags
`is_match` accepts, sort, take the last. -/
theorem get_latest_eq (candidate : Candidate) (registryTags : List String) (re : Regex)
    (h : Regex.new (String.mk (trimStartMatchesRegexp candidate.allow_tags.data)) = some re) :
    get_latest_tag_for_candidate candidate registryTags =
      match (List.insertionSort tagLe
          (registryTags.filter (fun name => re.is_match name))).getLast? with
      | none => Except.error ("No tags matched the regex for " ++ candidate.app_name)
      | some t => Except.ok t := by
  unfold get_latest_tag_for_candidate
  rw [h]

/-- A successfully resolved tag is a retained tag that is maximal among the
retained tags. -/
theorem get_latest_ok_max {candidate : Candidate} {registryTags : List String} {re : Regex}
    (h : Regex.new (String.mk (trimStartMatchesRegexp candidate.allow_tags.data)) = some re)
    {t : String} (ht : get_latest_tag_for_candidate candidate registryTags = Except.ok t) :
    (t ∈ registryTags ∧ re.is_match t = true) ∧
      ∀ u ∈ registryTags, re.is_match u = true → tagLe u t := by
  rw [get_latest_eq candidate registryTags re h] at ht
  cases hlast : (List.insertionSort tagLe
      (registryTags.filter (fun name => re.is_match name))).getLast? with
  | none =>
    rw [hlast] at ht
    simp at ht
  | some t' =>
    rw [hlast] at ht
    have htt : t' = t := by simpa using ht
    subst htt
    have hmem : t' ∈ List.insertionSort tagLe
        (registryTags.filter (fun name => re.is_match name)) :=
      List.mem_of_getLast?_eq_some hlast
    have hmem' : t' ∈ registryTags.filter (fun name => re.is_match name) :=
      (List.perm_insertionSort tagLe _).subset hmem
    have hsplit := List.mem_filter.mp hmem'
    refine ⟨⟨hsplit.1, hsplit.2⟩, ?_⟩
    intro u hu hmatch
    have husort : u ∈ List.insertionSort tagLe
        (registryTags.filter (fun name => re.is_match name)) :=
      (List.perm_insertionSort tagLe _).mem_iff.mpr (List.mem_filter.mpr ⟨hu, hmatch⟩)
    exact sorted_getLast?_max (List.sorted_insertionSort tagLe _) hlast u husort

/-- Resolution fails (with the no-matching-tag error) exactly when no tag
is retained. -/
theorem get_latest_error_iff {candidate : Candidate} {registryTags : List String} {re : Regex}
    (h : Regex.new (String.mk (trimStartMatchesRegexp candidate.allow_tags.data)) = some re) :
    get_latest_tag_for_candidate candidate registryTags
        = Except.error ("No tags matched the regex for " ++ candidate.app_name)
      ↔ registryTags.filter (fun name => re.is_match name) = [] := by
  rw [get_latest_eq candidate registryTags re h]
  cases hlast : (List.insertionSort tagLe
      (registryTags.filter (fun name => re.is_match name))).getLast? with
  | none =>
    simp only [List.getLast?_eq_none_iff] at hlast
    have : registryTags.filter (fun name => re.is_match name) = [] :=
      ((List.perm_insertionSort tagLe _).symm.trans (hlast ▸ List.Perm.refl _)).eq_nil
    simp [this]
  | some t' =>
    have hne : registryTags.filter (fun name => re.is_match name) ≠ [] := by
      intro hnil
      rw [hnil] at hlast
      simp [List.insertionSort] at hlast
    simp [hne]

/-- There is a resolved tag whenever some tag is retained. -/
theorem get_latest_ok_of_ne_nil {candidate : Candidate} {registryTags : List String} {re : Regex}
    (h : Regex.new (String.mk (trimStartMatchesRegexp candidate.allow_tags.data)) = some re)
    (hne : registryTags.filter (fun name => re.is_match name) ≠ []) :
    ∃ t, get_latest_tag_for_candidate candidate registryTags = Except.ok t := by
  rw [get_latest_eq candidate registryTags re h]
  cases hlast : (List.insertionSort tagLe
      (registryTags.filter (fun name => re.is_match name))).getLast? with
  | none =>
    rw [List.getLast?_eq_none_iff] at hlast
    have hp := (List.perm_insertionSort tagLe
      (registryTags.filter (fun name => re.is_match name))).symm
    rw [hlast] at hp
    exact absurd hp.eq_nil hne
  | some t => exact ⟨t, rfl⟩

/-- Scenario values for the resolution claims: a literal pattern (`v1`), and
a pattern retaining every tag (the empty pattern matches everywhere). -/
def candSub : Candidate := ⟨"app", "reg.example/app", "v1", "image.tag", "apps/app"⟩

def candAll : Candidate := ⟨"app", "reg.example/app", "", "image.tag", "apps/app"⟩

/-- The compiled form of `candSub.allow_tags`. -/
def reSub : Regex :=
  ⟨false, false, RegexAst.concat (RegexAst.char 'v')
    (RegexAst.concat (RegexAst.char '1') RegexAst.epsilon)⟩

/-- The compiled form of `candAll.allow_tags`. -/
def reAll : Regex := ⟨false, false, RegexAst.epsilon⟩

/-- C2: the claim says a tag is retained only when its ENTIRE string matches
the pattern.  The code retains via `Regex::is_match`, which is a substring
search: with pattern `v1` the tag `xv1x` is retained (and resolved), even
though the pattern does not match the entire tag. -/
theorem C2_counterexample :
    get_latest_tag_for_candidate candSub ["xv1x"] = Except.ok "xv1x" ∧
      (Regex.new "v1").map (fun re => specFullMatch re "xv1x") = some false ∧
      (Regex.new "v1").map (fun re => Regex.is_match re "xv1x") = some true := by
  decide

/-- C2 (amended): after stripping the `regexp:` occurrences and compiling,
resolution retains exactly the tags in which the pattern matches SOMEWHERE
(`is_match` substring semantics, not an entire-string match), and it fails
with the no-matching-tag error exactly when the retained set is empty. -/
theorem C2_retained_by_is_match (candidate : Candidate) (registryTags : List String) (re : Regex)
    (h : Regex.new (String.mk (trimStartMatchesRegexp candidate.allow_tags.data)) = some re) :
    (get_latest_tag_for_candidate candidate registryTags
        = Except.error ("No tags matched the regex for " ++ candidate.app_name)
      ↔ registryTags.filter (fun name => re.is_match name) = [])
    ∧ ∀ t, get_latest_tag_for_candidate candidate registryTags = Except.ok t →
        t ∈ registryTags ∧ re.is_match t = true :=
  ⟨get_latest_error_iff h, fun _ ht => (get_latest_ok_max h ht).1⟩

/-- C2 witness: the amended claim evaluated on the pattern `v1` and the
registry listing `["xv1x"]`. -/
theorem C2_witness :
    "xv1x" ∈ ["xv1x"] ∧ Regex.is_match reSub "xv1x" = true :=
  (C2_retained_by_is_match candSub ["xv1x"] reSub (by decide)).2 "xv1x" (by decide)

/-- C3: tag resolution selects a maximum of the retained tags under the
numeric-run-aware ordering; on the retained tags
`["v1.2", "v1.10", "v1.9"]` it resolves `"v1.10"`, and `"v2"` orders below
`"v10"`.  The maximality statement is confined by a `shortRuns` hypothesis
to tag lists whose retained tags' digit runs stay below `2^53` — the regime
on which the crate's float accumulation is exact and its ordering coincides
with `compare_path`; on longer runs the crate ties distinct run values and
the comparison is no longer the numeric one the claim describes. -/
theorem C3_numeric_aware_max :
    (get_latest_tag_for_candidate candAll ["v1.2", "v1.10", "v1.9"] = Except.ok "v1.10"
      ∧ compare_path "v2" "v10" = Ordering.lt)
    ∧ ∀ (candidate : Candidate) (registryTags : List String) (re : Regex),
        Regex.new (String.mk (trimStartMatchesRegexp candidate.allow_tags.data)) = some re →
        (∀ u ∈ registryTags, re.is_match u = true → shortRuns u.data = true) →
        ∀ t, get_latest_tag_for_candidate candidate registryTags = Except.ok t →
          t ∈ registryTags ∧ re.is_match t = true ∧
            ∀ u ∈ registryTags, re.is_match u = true → compare_path u t ≠ Ordering.gt := by
  refine ⟨⟨by decide, by decide⟩, ?_⟩
  intro candidate registryTags re h _hexact t ht
  obtain ⟨⟨hmem, hmatch⟩, hmax⟩ := get_latest_ok_max h ht
  exact ⟨hmem, hmatch, hmax⟩

/-- C3 witness: the maximality statement evaluated on the scenario list. -/
theorem C3_witness : compare_path "v1.2" "v1.10" ≠ Ordering.gt :=
  (C3_numeric_aware_max.2 candAll ["v1.2", "v1.10", "v1.9"] reAll (by decide) (by decide)
    "v1.10" (by decide)).2.2 "v1.2" (by decide) (by decide)

/-- C4: the claim says resolution is invariant under any permutation of the
tag list.  The comparator is not antisymmetric — the distinct tags "1" and
"01" compare equal — and the code takes the LAST element of a stable sort,
so the two orders of the same tag set resolve different tags. -/
theorem C4_counterexample :
    get_latest_tag_for_candidate candAll ["1", "01"] = Except.ok "01" ∧
      get_latest_tag_for_candidate candAll ["01", "1"] = Except.ok "1" ∧
      List.Perm ["1", "01"] ["01", "1"] :=
  ⟨by decide, by decide, List.Perm.swap _ _ _⟩

/-- C4 (amended): resolution is a pure function of its inputs (same tags,
same result), and it is invariant under permutation of the tag list
PROVIDED the retained tags' digit runs stay below `2^53` (so the crate's
float comparison of runs is exact and coincides with `compare_path`; on
longer runs the crate ties distinct run values and reordering can change
the result) AND no two distinct retained tags compare equal under the
alphanumeric ordering; tag lists containing distinct tags that compare
equal (such as "1" and "01") may resolve differently after reordering. -/
theorem C4_order_invariant_without_ties (candidate : Candidate) (tags tags' : List String)
    (re : Regex)
    (h : Regex.new (String.mk (trimStartMatchesRegexp candidate.allow_tags.data)) = some re)
    (_hexact : ∀ a ∈ tags, re.is_match a = true → shortRuns a.data = true)
    (hperm : List.Perm tags tags')
    (hinj : ∀ a ∈ tags, ∀ b ∈ tags, re.is_match a = true → re.is_match b = true →
      compare_path a b = Ordering.eq → a = b) :
    get_latest_tag_for_candidate candidate tags = get_latest_tag_for_candidate candidate tags' := by
  have hfperm : List.Perm (tags.filter (fun name => re.is_match name))
      (tags'.filter (fun name => re.is_match name)) := hperm.filter _
  by_cases hnil : tags.filter (fun name => re.is_match name) = []
  · have hnil' : tags'.filter (fun name => re.is_match name) = [] := by
      rw [hnil] at hfperm
      exact (hfperm.symm).eq_nil
    rw [(get_latest_error_iff h).mpr hnil, (get_latest_error_iff h).mpr hnil']
  · have hnil' : tags'.filter (fun name => re.is_match name) ≠ [] := by
      intro hc
      rw [hc] at hfperm
      exact hnil hfperm.eq_nil
    obtain ⟨t, ht⟩ := get_latest_ok_of_ne_nil h hnil
    obtain ⟨t', ht'⟩ := get_latest_ok_of_ne_nil h hnil'
    obtain ⟨⟨htm, htmatch⟩, htmax⟩ := get_latest_ok_max h ht
    obtain ⟨⟨htm', htmatch'⟩, htmax'⟩ := get_latest_ok_max h ht'
    have h1 : tagLe t' t := htmax t' (hperm.symm.subset htm') htmatch'
    have h2 : tagLe t t' := htmax' t (hperm.subset htm) htmatch
    have heq : t' = t :=
      hinj t' (hperm.symm.subset htm') t htm htmatch' htmatch (compare_path_eq_of_le_le h1 h2)
    rw [ht, ht', heq]

/-- C4 witness: permutation invariance on a tie-free list. -/
theorem C4_witness :
    get_latest_tag_for_candidate candAll ["v2", "v10"]
      = get_latest_tag_for_candidate candAll ["v10", "v2"] :=
  C4_order_invariant_without_ties candAll ["v2", "v10"] ["v10", "v2"] reAll (by decide)
    (by decide) (List.Perm.swap _ _ _) (by decide)

/-! ## The override patcher -/

theorem patchParameters_fst (k tag : String) (ps : List Parameter) :
    (patchParameters k tag ps).1 =
      ps.map (fun p => if p.name = k ∧ p.value ≠ tag then ⟨p.name, tag, p.forcestring⟩ else p) := by
  induction ps with
  | nil => rfl
  | cons p ps ih =>
    by_cases h : p.name = k ∧ p.value ≠ tag
    · simp [patchParameters, h, ih]
    · simp [patchParameters, h, ih]

theorem patchParameters_snd (k tag : String) (ps : List Parameter) :
    (patchParameters k tag ps).2 = true ↔ ∃ p ∈ ps, p.name = k ∧ p.value ≠ tag := by
  induction ps with
  | nil => simp [patchParameters]
  | cons p ps ih =>
    by_cases h : p.name = k ∧ p.value ≠ tag
    · simp [patchParameters, h]
    · simp [patchParameters, h, ih]

theorem patchParameters_nochange {k tag : String} {ps : List Parameter}
    (h : ∀ p ∈ ps, p.name = k → p.value = tag) :
    patchParameters k tag ps = (ps, false) := by
  induction ps with
  | nil => rfl
  | cons p ps ih =>
    have hcond : ¬(p.name = k ∧ p.value ≠ tag) := by
      rintro ⟨h1, h2⟩
      exact h2 (h p (List.mem_cons_self _ _) h1)
    have ih' := ih (fun q hq => h q (List.mem_cons_of_mem _ hq))
    simp [patchParameters, hcond, ih']

theorem patchParameters_idem (k tag : String) (ps : List Parameter) :
    patchParameters k tag (patchParameters k tag ps).1 = ((patchParameters k tag ps).1, false) := by
  apply patchParameters_nochange
  intro p hp hname
  rw [patchParameters_fst] at hp
  obtain ⟨q, _, rfl⟩ := List.mem_map.mp hp
  by_cases h : q.name = k ∧ q.value ≠ tag
  · rw [if_pos h]
  · rw [if_neg h] at hname ⊢
    by_contra hne
    exact h ⟨hname, hne⟩

theorem patchOverrides_idem (doc : Overrides) (c : Candidate) (tag : String) :
    patchOverrides (patchOverrides doc c tag).1 c tag = ((patchOverrides doc c tag).1, false) := by
  simp [patchOverrides, patchParameters_idem]

/-- C5: the document-level patch sets `value := resolved_tag` on EVERY entry
whose name matches and whose value differs (duplicates included), leaves
every other entry and every name/forcestring field unchanged, never inserts
an entry, reports a change exactly when some entry was modified, and — at
the working-copy level — writes nothing and reports no change when no entry
matches the parameter name. -/
theorem C5_patch_characterisation (doc : Overrides) (candidate : Candidate) (tag : String) :
    ((patchOverrides doc candidate tag).1.helm.parameters.params =
        doc.helm.parameters.params.map
          (fun p => if p.name = candidate.helm_image_tag ∧ p.value ≠ tag
            then ⟨p.name, tag, p.forcestring⟩ else p))
    ∧ ((patchOverrides doc candidate tag).2 = true ↔
        ∃ p ∈ doc.helm.parameters.params, p.name = candidate.helm_image_tag ∧ p.value ≠ tag)
    ∧ ((patchOverrides doc candidate tag).1.helm.parameters.params.length =
        doc.helm.parameters.params.length)
    ∧ ∀ fs : FS, fs (overridesPath candidate) = FileState.valid doc →
        (∀ p ∈ doc.helm.parameters.params, p.name ≠ candidate.helm_image_tag) →
        update_tag_for_candidate fs candidate tag = Except.ok (fs, false) := by
  refine ⟨patchParameters_fst _ _ _, patchParameters_snd _ _ _, ?_, ?_⟩
  · rw [show (patchOverrides doc candidate tag).1.helm.parameters.params =
        (patchParameters candidate.helm_image_tag tag doc.helm.parameters.params).1 from rfl,
      patchParameters_fst, List.length_map]
  · intro fs hfs hnm
    have hpatch : patchParameters candidate.helm_image_tag tag doc.helm.parameters.params
        = (doc.helm.parameters.params, false) :=
      patchParameters_nochange (fun p hp h1 => absurd h1 (hnm p hp))
    simp only [update_tag_for_candidate]
    rw [hfs]
    simp [patchOverrides, hpatch]

/-- Working values for the patcher witnesses. -/
def candPatch : Candidate := ⟨"app", "reg.example/app", "", "image.tag", "apps/app"⟩

def docOther : Overrides := ⟨⟨⟨[⟨"other.tag", "v1", false⟩]⟩⟩⟩

def fsOther : FS := fun p =>
  if p = overridesPath candPatch then FileState.valid docOther else FileState.absent

/-- C5 witness: the no-matching-parameter case on a concrete working copy. -/
theorem C5_witness : update_tag_for_candidate fsOther candPatch "v2" = Except.ok (fsOther, false) :=
  (C5_patch_characterisation docOther candPatch "v2").2.2.2 fsOther (by decide) (by decide)

/-- C6: applying the patcher twice in a row with the same candidate and
resolved tag: the second application reports `changed = false` and leaves
both the document and the working copy exactly as after the first. -/
theorem C6_patch_idempotent (candidate : Candidate) (tag : String) :
    (∀ doc : Overrides,
      patchOverrides (patchOverrides doc candidate tag).1 candidate tag
        = ((patchOverrides doc candidate tag).1, false))
    ∧ ∀ (fs fs1 : FS) (ch : Bool),
        update_tag_for_candidate fs candidate tag = Except.ok (fs1, ch) →
        update_tag_for_candidate fs1 candidate tag = Except.ok (fs1, false) := by
  constructor
  · intro doc
    exact patchOverrides_idem doc candidate tag
  · intro fs fs1 ch h
    simp only [update_tag_for_candidate] at h
    cases hfs : fs (overridesPath candidate) with
    | invalid =>
      rw [hfs] at h
      exact absurd h (by simp)
    | absent =>
      rw [hfs] at h
      have hdef : (patchOverrides Overrides.default candidate tag).2 = false := rfl
      rw [if_neg (by simp [hdef])] at h
      have hfs1 : fs1 = fs := by
        have := (Except.ok.injEq _ _).mp h
        exact (Prod.mk.injEq _ _ _ _).mp this |>.1.symm
      subst hfs1
      simp only [update_tag_for_candidate]
      rw [hfs, if_neg (by simp [hdef])]
    | valid doc =>
      rw [hfs] at h
      simp only [] at h
      by_cases hch : (patchOverrides doc candidate tag).2 = true
      · rw [if_pos hch] at h
        have hfs1 : fs1 = fsWrite fs (overridesPath candidate) (patchOverrides doc candidate tag).1 := by
          have := (Except.ok.injEq _ _).mp h
          exact (Prod.mk.injEq _ _ _ _).mp this |>.1.symm
        subst hfs1
        simp only [update_tag_for_candidate]
        have hlook : fsWrite fs (overridesPath candidate) (patchOverrides doc candidate tag).1
            (overridesPath candidate)
            = FileState.valid (patchOverrides doc candidate tag).1 := by
          simp [fsWrite]
        rw [hlook]
        simp only []
        rw [if_neg (by simp [patchOverrides_idem doc candidate tag])]
      · rw [if_neg hch] at h
        have hfs1 : fs1 = fs := by
          have := (Except.ok.injEq _ _).mp h
          exact (Prod.mk.injEq _ _ _ _).mp this |>.1.symm
        subst hfs1
        simp only [update_tag_for_candidate]
        rw [hfs]
        simp only []
        rw [if_neg hch]

/-- Documents used by the patcher and orchestration scenarios: a stale
pinned tag (`v1`) and the document the patcher produces for resolved tag
`v2`. -/
def docStale : Overrides := ⟨⟨⟨[⟨"image.tag", "v1", false⟩]⟩⟩⟩

def docFresh : Overrides := ⟨⟨⟨[⟨"image.tag", "v2", false⟩]⟩⟩⟩

def fsStale : FS := fun p =>
  if p = overridesPath candPatch then FileState.valid docStale else FileState.absent

/-- C6 witness: after a first application that rewrote the pinned tag, the
second application reports no change and returns the working copy as is. -/
theorem C6_witness :
    update_tag_for_candidate (fsWrite fsStale (overridesPath candPatch) docFresh) candPatch "v2"
      = Except.ok (fsWrite fsStale (overridesPath candPatch) docFresh, false) :=
  (C6_patch_idempotent candPatch "v2").2 fsStale
    (fsWrite fsStale (overridesPath candPatch) docFresh) true rfl

/-! ## The update orchestration: claims C1 and C7 -/

/-- C1 (amended): a failure while resolving a tag for one candidate, or
while patching one candidate's override file, ABORTS the remaining run
instead of skipping only that candidate: the loop stops at the failing
candidate (remaining candidates are not processed and the working copy is
left as it was at that point), the error is surfaced from the pipeline (the
trigger handler logs it), and the commit-and-push step is not entered. -/
theorem C1_failure_aborts_run :
    (∀ (registry : Candidate → Except String (List String)) (c : Candidate)
        (cs : List Candidate) (fs : FS) (e : String),
        resolve_tag registry c = Except.error e →
        updateLoop registry (c :: cs) fs = (fs, [], some e))
    ∧ (∀ (registry : Candidate → Except String (List String)) (c : Candidate)
        (cs : List Candidate) (fs : FS) (tag e : String),
        resolve_tag registry c = Except.ok tag →
        update_tag_for_candidate fs c tag = Except.error e →
        updateLoop registry (c :: cs) fs = (fs, [], some e))
    ∧ ∀ (registry : Candidate → Except String (List String)) (candidates : List Candidate)
        (fs0 : FS),
        (update registry candidates fs0).err.isSome = true →
        (update registry candidates fs0).committed = false := by
  refine ⟨?_, ?_, ?_⟩
  · intro registry c cs fs e h
    simp [updateLoop, h]
  · intro registry c cs fs tag e h1 h2
    simp [updateLoop, h1, h2]
  · intro registry candidates fs0 h
    simp only [update] at h ⊢
    cases herr : (updateLoop registry candidates fs0).2.2 with
    | none =>
      rw [herr] at h
      simp at h
    | some e =>
      rfl

/-- Concrete run scenario: `badCand`'s registry listing retains nothing (its
resolution fails with the no-matching-tag error); `goodCand` carries a stale
pinned tag, so its patch reports a real change. -/
def badCand : Candidate := ⟨"bad", "reg.example/bad", "", "image.tag", "apps/bad"⟩

def goodCand : Candidate := ⟨"good", "reg.example/good", "", "image.tag", "apps/good"⟩

def scenarioRegistry : Candidate → Except String (List String) := fun c =>
  if c.app_name = "bad" then Except.ok [] else Except.ok ["v2"]

def scenarioFs : FS := fun p =>
  if p = overridesPath goodCand then FileState.valid docStale else FileState.absent

/-- C1: the claim says a per-candidate resolution failure only skips that
candidate and the run continues.  In this run the FIRST candidate's
resolution fails and the run stops there: the second candidate — whose
resolution would succeed and whose patch would report a real change — is
never processed and its override file is left untouched. -/
theorem C1_counterexample :
    (updateLoop scenarioRegistry [badCand, goodCand] scenarioFs).2.2
        = some "No tags matched the regex for bad"
    ∧ (updateLoop scenarioRegistry [badCand, goodCand] scenarioFs).1 (overridesPath goodCand)
        = FileState.valid docStale
    ∧ patchOutcome (update_tag_for_candidate scenarioFs goodCand "v2") = some true
    ∧ resolve_tag scenarioRegistry goodCand = Except.ok "v2" := by
  exact ⟨by decide, by decide, by decide, by decide⟩

/-- C1 witness: the abort behaviour evaluated on the concrete scenario. -/
theorem C1_witness :
    updateLoop scenarioRegistry [badCand, goodCand] scenarioFs
      = (scenarioFs, [], some "No tags matched the regex for bad") :=
  C1_failure_aborts_run.1 scenarioRegistry badCand [goodCand] scenarioFs
    "No tags matched the regex for bad" (by decide)

/-- A run in which every candidate resolves and patches with no change walks
the whole candidate list, leaves the working copy untouched and reports only
unchanged patches. -/
theorem updateLoop_noop (registry : Candidate → Except String (List String))
    (candidates : List Candidate) (fs0 : FS)
    (h : ∀ c ∈ candidates, ∃ tag, resolve_tag registry c = Except.ok tag ∧
        update_tag_for_candidate fs0 c tag = Except.ok (fs0, false)) :
    updateLoop registry candidates fs0 = (fs0, List.replicate candidates.length false, none) := by
  induction candidates with
  | nil => rfl
  | cons c cs ih =>
    obtain ⟨tag, h1, h2⟩ := h c (List.mem_cons_self _ _)
    have ih' := ih (fun c' hc' => h c' (List.mem_cons_of_mem _ hc'))
    simp [updateLoop, h1, h2, ih', List.replicate]

theorem any_id_replicate_false (n : Nat) : (List.replicate n false).any id = false := by
  induction n with
  | zero => rfl
  | succ n ih => simp [List.replicate, ih]

/-- C7 (amended): the commit-and-push step is entered iff the per-candidate
loop finished WITHOUT error and at least one patch reported a real change;
in particular a run in which no candidate's resolved tag differs from its
pinned override value performs no commit and no push and leaves the working
copy untouched.  (On a run aborted by a later candidate's failure, commit is
not entered even if an earlier patch reported a change.) -/
theorem C7_commit_iff :
    (∀ (registry : Candidate → Except String (List String)) (candidates : List Candidate)
        (fs0 : FS),
        (update registry candidates fs0).committed = true ↔
          ((updateLoop registry candidates fs0).2.2 = none ∧
            true ∈ (updateLoop registry candidates fs0).2.1))
    ∧ ∀ (registry : Candidate → Except String (List String)) (candidates : List Candidate)
        (fs0 : FS),
        (∀ c ∈ candidates, ∃ tag, resolve_tag registry c = Except.ok tag ∧
            update_tag_for_candidate fs0 c tag = Except.ok (fs0, false)) →
        update registry candidates fs0 = ⟨fs0, false, none⟩ := by
  constructor
  · intro registry candidates fs0
    simp only [update]
    cases herr : (updateLoop registry candidates fs0).2.2 with
    | some e => simp
    | none =>
      constructor
      · intro hcom
        refine ⟨rfl, ?_⟩
        obtain ⟨x, hx, hxe⟩ := List.any_eq_true.mp hcom
        cases x
        · simp at hxe
        · exact hx
      · rintro ⟨-, hx⟩
        exact List.any_eq_true.mpr ⟨true, hx, rfl⟩
  · intro registry candidates fs0 h
    have hl := updateLoop_noop registry candidates fs0 h
    simp only [update, hl, any_id_replicate_false]

/-- C7: the claim's "iff" fails on aborted runs: here the first candidate's
patch reports a real change, but the second candidate's resolution failure
aborts the run before the commit decision, so commit-and-push is not
entered. -/
theorem C7_counterexample :
    (update scenarioRegistry [goodCand, badCand] scenarioFs).committed = false
    ∧ (updateLoop scenarioRegistry [goodCand, badCand] scenarioFs).2.1 = [true]
    ∧ (update scenarioRegistry [goodCand, badCand] scenarioFs).err.isSome = true := by
  exact ⟨by decide, by decide, by decide⟩

/-- Working copy in which `goodCand`'s pinned tag already equals the
resolved tag. -/
def noopFs : FS := fun p =>
  if p = overridesPath goodCand then FileState.valid docFresh else FileState.absent

/-- C7 witness: a no-op cycle on a concrete working copy performs no commit
and leaves the working copy untouched. -/
theorem C7_witness : update scenarioRegistry [goodCand] noopFs = ⟨noopFs, false, none⟩ :=
  C7_commit_iff.2 scenarioRegistry [goodCand] noopFs (by
    intro c hc
    simp only [List.mem_singleton] at hc
    subst hc
    exact ⟨"v2", by decide, rfl⟩)

/-! ## The trigger response: claim C9 -/

/-- C9: the claim says a failing pipeline is reported as a failure to the
caller.  The handler only LOGS the pipeline error and returns unit, so an
authorized trigger observes the success status whatever the pipeline did. -/
theorem C9_counterexample :
    root "s" (some "s") (Except.error "update failed") = TriggerStatus.success ∧
      root "s" (some "s") (Except.error "update failed") = root "s" (some "s") (Except.ok ()) := by
  exact ⟨by decide, by decide⟩

/-- C9 (amended): the response carries nothing but a status, and that status
does not depend on the pipeline outcome: an authorized trigger always
receives the success status (pipeline failures are only logged), and an
unauthorized one the unauthorized status. -/
theorem C9_response_ignores_outcome :
    ∀ (configSecret : String) (header : Option String) (u u' : Except String Unit),
      root configSecret header u = root configSecret header u'
      ∧ (header = some configSecret → root configSecret header u = TriggerStatus.success)
      ∧ (header ≠ some configSecret → root configSecret header u = TriggerStatus.unauthorized) := by
  intro s h u u'
  refine ⟨rfl, ?_, ?_⟩
  · intro hh
    simp [root, hh]
  · intro hh
    simp [root, hh]

/-- C9 witness: both response branches evaluated concretely. -/
theorem C9_witness :
    root "secret" (some "secret") (Except.error "pipeline") = TriggerStatus.success ∧
      root "secret" none (Except.ok ()) = TriggerStatus.unauthorized :=
  ⟨(C9_response_ignores_outcome "secret" (some "secret") (Except.error "pipeline")
      (Except.ok ())).2.1 rfl,
    (C9_response_ignores_outcome "secret" none (Except.ok ()) (Except.ok ())).2.2 (by simp)⟩

/-! ## Candidate extraction: claims C8 and C10 -/

theorem trimChars_cons_space (e : List Char) : trimChars (' ' :: e) = trimChars e := by
  simp [trimChars, List.dropWhile_cons, isRustWhitespace]

theorem trimChars_append_space (e : List Char) : trimChars (e ++ [' ']) = trimChars e := by
  unfold trimChars
  rw [List.dropWhile_append]
  by_cases h : (e.dropWhile isRustWhitespace).isEmpty
  · rw [if_pos h]
    have h2 : e.dropWhile isRustWhitespace = [] := by
      cases hh : e.dropWhile isRustWhitespace with
      | nil => rfl
      | cons x xs => rw [hh] at h; simp at h
    rw [h2]
    decide
  · rw [if_neg h]
    rw [List.reverse_append]
    simp [List.dropWhile_cons, isRustWhitespace]

theorem process_image_cons_space (annotations : YMap) (app_name path : String) (e : List Char) :
    process_image annotations app_name path (' ' :: e)
      = process_image annotations app_name path e := by
  simp only [process_image, trimChars_cons_space]

theorem process_image_append_space (annotations : YMap) (app_name path : String) (e : List Char) :
    process_image annotations app_name path (e ++ [' '])
      = process_image annotations app_name path e := by
  simp only [process_image, trimChars_append_space]

/-- C8: for an eligible application declaration, an image-list entry whose
per-image `allow-tags` or `helm.image-tag` annotation is missing (or is not
a string — `yGetStr` returns `none` for both) produces no candidate, and the
sibling entries of the same image-list are processed unaffected, in their
listed order. -/
theorem C8_missing_annotation_skips_image
    (annotations : YMap) (app_name path : String) (s : String)
    (pre post : List (List Char)) (e : List Char) (nameUrl : List Char × List Char)
    (hsplit : splitComma s.data = pre ++ e :: post)
    (hentry : split_once_eq (trimChars e) = some nameUrl)
    (hmiss :
      yGetStr annotations
          ("argocd-image-updater.argoproj.io/" ++ String.mk nameUrl.1 ++ ".allow-tags") = none
        ∨ yGetStr annotations
          ("argocd-image-updater.argoproj.io/" ++ String.mk nameUrl.1 ++ ".helm.image-tag")
            = none) :
    process_image annotations app_name path e = none
    ∧ candidates_from_image_list annotations app_name path s
        = pre.filterMap (process_image annotations app_name path)
          ++ post.filterMap (process_image annotations app_name path) := by
  have hnone : process_image annotations app_name path e = none := by
    rcases hmiss with hm | hm
    · simp [process_image, hentry, hm]
    · cases hall : yGetStr annotations
          ("argocd-image-updater.argoproj.io/" ++ String.mk nameUrl.1 ++ ".allow-tags") with
      | none => simp [process_image, hentry, hall]
      | some a => simp [process_image, hentry, hall, hm]
  refine ⟨hnone, ?_⟩
  unfold candidates_from_image_list
  rw [hsplit, List.filterMap_append, List.filterMap_cons_none hnone]

/-- Annotations for the C8 witness: image `a` carries no per-image
annotations, image `b` carries both. -/
def annPartial : YMap :=
  [("argocd-image-updater.argoproj.io/image-list", YVal.str "a=r1,b=r2"),
   ("argocd-image-updater.argoproj.io/b.allow-tags", YVal.str "v2"),
   ("argocd-image-updater.argoproj.io/b.helm.image-tag", YVal.str "image.tag")]

/-- C8 witness: on the concrete list `a=r1,b=r2` the annotation-less image
`a` yields no candidate while its sibling list is processed unaffected. -/
theorem C8_witness :
    process_image annPartial "app" "apps/app" ("a=r1").data = none
    ∧ candidates_from_image_list annPartial "app" "apps/app" "a=r1,b=r2"
        = List.filterMap (process_image annPartial "app" "apps/app") []
          ++ List.filterMap (process_image annPartial "app" "apps/app") [("b=r2").data] :=
  C8_missing_annotation_skips_image annPartial "app" "apps/app" "a=r1,b=r2"
    [] [("b=r2").data] ("a=r1").data (("a").data, ("r1").data) (by decide) (by decide)
    (Or.inl (by decide))

/-- Annotations keyed by the image name WITH its adjacent space (`a `), and
by the plain name (`a`). -/
def annSpacedName : YMap :=
  [("argocd-image-updater.argoproj.io/a .allow-tags", YVal.str "vtags"),
   ("argocd-image-updater.argoproj.io/a .helm.image-tag", YVal.str "image.tag")]

def annPlainName : YMap :=
  [("argocd-image-updater.argoproj.io/a.allow-tags", YVal.str "vtags"),
   ("argocd-image-updater.argoproj.io/a.helm.image-tag", YVal.str "image.tag")]

/-- C10: every comma-separated image-list entry is trimmed of leading and
trailing whitespace BEFORE the split on its first `=` (so `a=r1, b=r2`
yields the same candidates as `a=r1,b=r2`), while whitespace adjacent to the
`=` itself is not removed: in `a = r1` the image name stays `a ` (its
annotation lookups use the spaced name, and the plain name finds nothing)
and the registry url stays ` r1`. -/
theorem C10_entries_trimmed_before_split :
    (∀ (annotations : YMap) (app_name path : String) (e : List Char),
      process_image annotations app_name path (' ' :: e)
          = process_image annotations app_name path e
        ∧ process_image annotations app_name path (e ++ [' '])
          = process_image annotations app_name path e)
    ∧ (∀ (annotations : YMap) (app_name path : String),
        candidates_from_image_list annotations app_name path "a=r1, b=r2"
          = candidates_from_image_list annotations app_name path "a=r1,b=r2")
    ∧ candidates_from_image_list annSpacedName "app" "apps/app" "a = r1"
        = [⟨"app", " r1", "vtags", "image.tag", "apps/app"⟩]
    ∧ candidates_from_image_list annPlainName "app" "apps/app" "a = r1" = [] := by
  refine ⟨?_, ?_, by decide, by decide⟩
  · intro annotations app_name path e
    exact ⟨process_image_cons_space annotations app_name path e,
      process_image_append_space annotations app_name path e⟩
  · intro annotations app_name path
    show (splitComma ("a=r1, b=r2").data).filterMap (process_image annotations app_name path)
        = (splitComma ("a=r1,b=r2").data).filterMap (process_image annotations app_name path)
    have hs1 : splitComma ("a=r1, b=r2").data = [("a=r1").data, ' ' :: ("b=r2").data] := by
      decide
    have hs2 : splitComma ("a=r1,b=r2").data = [("a=r1").data, ("b=r2").data] := by decide
    rw [hs1, hs2]
    simp only [List.filterMap_cons, process_image_cons_space]

end ImageUpdater
